import Mathlib

/-!
Shallow embedding of the QueueManagement service (src/main.py together with
the server-side queue procedures it invokes through the store).

The store's table `queue` is embedded as a list of rows (`QueueState`), in
insertion order.  The FastAPI handlers `increment_queue`, `decrement_queue`
and `get_queues_summary`, the helper `broadcast_update` and the
`BroadcastManager.broadcast` fan-out are translated from src/main.py.  The
server-side procedures `add_caller_to_queue`, `remove_caller_from_queue` and
`get_queue_summary` live in the external store and are modelled from the
spec (sections 3-5), as marked on each definition.
-/

/-- One row of the `queue` table: a caller entry (src/main.py `Caller` plus
the stored `position` column, spec section 3). -/
structure Entry where
  phone_number : String
  queue_name : String
  position : Nat
deriving DecidableEq

/-- The table of all caller entries, in insertion order. -/
abbrev QueueState := List Entry

/-- The natural-key test used by both store procedures: does the row match
`(phone_number, queue_name)`? -/
def keyB (p q : String) (e : Entry) : Bool :=
  e.phone_number == p && e.queue_name == q

/-- Whether `(phone_number, queue_name)` occupies the queue. -/
def inQueue (s : QueueState) (p q : String) : Bool :=
  s.any (keyB p q)

/-- Occupant count of queue `q` (spec: `current_occupant_count`). -/
def occupantCount (s : QueueState) (q : String) : Nat :=
  (s.filter (fun e => e.queue_name == q)).length

/-- The positions held by the entries of queue `q`, in row order. -/
def queuePositions (s : QueueState) (q : String) : List Nat :=
  (s.filter (fun e => e.queue_name == q)).map (fun e => e.position)

/-- Number of rows matching the natural key `(p, q)`. -/
def keyCount (s : QueueState) (p q : String) : Nat :=
  (s.filter (keyB p q)).length

/-- Number of rows of queue `q` holding position `k`. -/
def posCount (s : QueueState) (q : String) (k : Nat) : Nat :=
  (s.filter (fun e => e.queue_name == q && e.position == k)).length

/-- The duplicate-caller error message that the store raises and that
src/main.py line 74 searches for in the exception text. -/
def dupMsg : String := "Caller is already in queue"

/-- Modelled from the spec: the server-side atomic procedure
`add_caller_to_queue` invoked by src/main.py lines 65-68 but implemented in
the external store.  Spec section 4.1: "atomically checks whether
`(phone_number, queue_name)` already exists; if so, fails with
`DuplicateError` (no mutation).  Otherwise computes `new_position =
current_occupant_count(queue_name) + 1` and inserts the entry with that
position, as a single atomic unit"; it "returns the assigned position on
success". -/
def add_caller_to_queue (s : QueueState) (p q : String) :
    Except String (QueueState × Nat) :=
  if inQueue s p q then Except.error dupMsg
  else Except.ok (s ++ [Entry.mk p q (occupantCount s q + 1)], occupantCount s q + 1)

/-- Renumbering applied to a surviving row after the row at position `p0` of
queue `q` was deleted (spec section 4.1: "for every remaining entry in the
same queue with `position > removed_position`, decrements its `position` by
exactly 1"). -/
def renumber (q : String) (p0 : Nat) (e : Entry) : Entry :=
  if e.queue_name == q && p0 < e.position then
    Entry.mk e.phone_number e.queue_name (e.position - 1)
  else e

/-- Modelled from the spec: the server-side atomic procedure
`remove_caller_from_queue` invoked by src/main.py lines 84-87 but implemented
in the external store.  Spec section 4.1: "atomically locates and deletes the
entry; if absent, returns a non-error not-found result"; on deletion it
renumbers the remaining entries of the queue and "returns the position the
caller held immediately before removal".  The procedure's result is the
deleted position, with `0` for the not-found outcome, matching the
`deleted_position > 0` test at src/main.py line 89. -/
def remove_caller_from_queue (s : QueueState) (p q : String) : QueueState × Nat :=
  match s.find? (keyB p q) with
  | none => (s, 0)
  | some e0 =>
      ((s.filter (fun e => !keyB p q e)).map (renumber q e0.position), e0.position)

/-- One step of the counting loop of src/main.py lines 166-168:
`queue_counts[q_name] = queue_counts.get(q_name, 0) + 1` over an
insertion-ordered dict, embedded as an association list. -/
def bump (acc : List (String × Nat)) (nm : String) : List (String × Nat) :=
  if acc.any (fun pr => pr.1 == nm) then
    acc.map (fun pr => if pr.1 == nm then (pr.1, pr.2 + 1) else pr)
  else acc ++ [(nm, 1)]

/-- The `GET /queues/summary` aggregation of src/main.py lines 150-175: fetch
every row's `queue_name` and count occurrences per name (the early return for
no rows coincides with the fold over the empty list). -/
def get_queues_summary (s : QueueState) : List (String × Nat) :=
  (s.map (fun e => e.queue_name)).foldl bump []

/-- A broadcast payload: the summary carried to subscribers (src/main.py
serialises it with `json.dumps`; the embedding carries the value itself). -/
abbrev Msg := List (String × Nat)

/-- The full service state: the store's table plus the
`BroadcastManager.subscribers` list, each subscriber being the list of
messages delivered to its channel so far. -/
structure World where
  store : QueueState
  subscribers : List (List Msg)
deriving DecidableEq

/-- Modelled from the spec: the server-side `get_queue_summary` procedure
invoked by src/main.py line 181 but implemented in the external store; spec
section 4.1 specifies `summary()` as the mapping from each queue currently
holding at least one entry to its occupant count, which is the same
aggregation the Python summary endpoint computes. -/
def get_queue_summary (s : QueueState) : Msg :=
  get_queues_summary s

/-- `BroadcastManager.broadcast` (src/main.py lines 28-31): put the message
on every subscriber's channel. -/
def broadcast (subs : List (List Msg)) (m : Msg) : List (List Msg) :=
  subs.map (fun chan => chan ++ [m])

/-- Nondeterministic outcome of one `broadcast_update` call: everything
succeeded, the summary fetch raised, or delivery raised after reaching the
first `k` subscribers.  Exceptions are caught inside `broadcast_update`
(src/main.py lines 184-185), so the outcome only selects how far delivery
got. -/
inductive NotifyOutcome where
  | ok
  | fetchFail
  | deliverFail (k : Nat)
deriving DecidableEq

/-- `broadcast_update` (src/main.py lines 179-185): fetch the latest summary
and broadcast it; any exception is caught and logged, never re-raised, and
the store is untouched. -/
def broadcast_update (o : NotifyOutcome) (w : World) : World :=
  match o with
  | NotifyOutcome.ok =>
      World.mk w.store (broadcast w.subscribers (get_queue_summary w.store))
  | NotifyOutcome.fetchFail => w
  | NotifyOutcome.deliverFail k =>
      World.mk w.store
        ((w.subscribers.take k).map (fun chan => chan ++ [get_queue_summary w.store])
          ++ w.subscribers.drop k)

/-- Outcome of `POST /queue/increment` as seen by the HTTP caller:
`200 {position}`, `409` duplicate conflict, or `500`. -/
inductive IncResp where
  | ok (position : Nat)
  | conflict
  | serverError
deriving DecidableEq

/-- `increment_queue` (src/main.py lines 59-76): run the atomic store
procedure; on success broadcast and return the position; on the
duplicate-caller error return 409, otherwise 500.  The handler's substring
test on the exception text reduces to equality with `dupMsg` because the
modelled store error is exactly that message. -/
def increment_queue (o : NotifyOutcome) (w : World) (p q : String) :
    World × IncResp :=
  match add_caller_to_queue w.store p q with
  | Except.ok r => (broadcast_update o (World.mk r.1 w.subscribers), IncResp.ok r.2)
  | Except.error msg =>
      (w, if msg == dupMsg then IncResp.conflict else IncResp.serverError)

/-- The 200-body message of a successful removal (src/main.py line 92). -/
def removedMsg (p q : String) : String :=
  "Caller " ++ p ++ " removed from queue " ++ q ++ "."

/-- The 200-body message of the not-found outcome (src/main.py line 94). -/
def notFoundMsg : String := "Caller not found in the queue or already removed."

/-- `decrement_queue` (src/main.py lines 78-96): run the atomic store
procedure; if a positive position was deleted, broadcast and report the
removal, else report not-found (still HTTP 200).  The store mutation, being
already committed, persists in either branch. -/
def decrement_queue (o : NotifyOutcome) (w : World) (p q : String) :
    World × String :=
  let r := remove_caller_from_queue w.store p q
  if 0 < r.2 then
    (broadcast_update o (World.mk r.1 w.subscribers), removedMsg p q)
  else
    (World.mk r.1 w.subscribers, notFoundMsg)

/-- The join-step used when modelling a set of concurrent joins: each join is
one atomic store procedure, so any concurrent schedule is some sequential
order of the atomic units (spec section 5); a failed join leaves the state. -/
def joinStep (q : String) (s : QueueState) (pn : String) : QueueState :=
  match add_caller_to_queue s pn q with
  | Except.ok r => r.1
  | Except.error _ => s

/-- Run the joins of all the given callers into queue `q`, starting from the
empty store, in the given schedule order. -/
def joinAll (q : String) (phones : List String) : QueueState :=
  phones.foldl (joinStep q) []

/-- Spec section 3 invariant, position half: the positions of queue `q` are
exactly `{1, ..., occupantCount}` — no gaps, no duplicates. -/
def PosExact (s : QueueState) (q : String) : Prop :=
  List.Perm (queuePositions s q) (List.range' 1 (occupantCount s q))

/-- Spec section 3 invariant, key half: every `(phone_number, queue_name)`
pair occurs at most once. -/
def NoDupKeys (s : QueueState) : Prop :=
  ∀ p q, keyCount s p q ≤ 1

/-- The full data-model invariant of spec section 3. -/
def QueueInvariant (s : QueueState) : Prop :=
  NoDupKeys s ∧ ∀ q, PosExact s q

/-! ### Counting infrastructure -/

lemma length_filter_eq_countP (P : Entry → Bool) (s : QueueState) :
    (s.filter P).length = s.countP P :=
  (List.countP_eq_length_filter P s).symm

lemma length_filter_map {α β : Type} (f : α → β) (P : β → Bool) (l : List α) :
    ((l.map f).filter P).length = (l.filter (fun e => P (f e))).length := by
  rw [← List.countP_eq_length_filter, ← List.countP_eq_length_filter, List.countP_map]
  rfl

lemma renumber_phone (q : String) (p0 : Nat) (e : Entry) :
    (renumber q p0 e).phone_number = e.phone_number := by
  unfold renumber; split <;> rfl

lemma renumber_queue (q : String) (p0 : Nat) (e : Entry) :
    (renumber q p0 e).queue_name = e.queue_name := by
  unfold renumber; split <;> rfl

lemma renumber_position (q : String) (p0 : Nat) (e : Entry) :
    (renumber q p0 e).position =
      if e.queue_name == q && decide (p0 < e.position) then e.position - 1
      else e.position := by
  unfold renumber; split <;> simp_all

lemma keyB_renumber (p' q' q : String) (p0 : Nat) (e : Entry) :
    keyB p' q' (renumber q p0 e) = keyB p' q' e := by
  simp [keyB, renumber_phone, renumber_queue]

lemma filter_single_of_noDupKeys {s : QueueState} {p q : String} {e0 : Entry}
    (hnd : NoDupKeys s) (he : e0 ∈ s) (hk : keyB p q e0 = true) :
    s.filter (keyB p q) = [e0] := by
  have hmem : e0 ∈ s.filter (keyB p q) := List.mem_filter.mpr ⟨he, hk⟩
  have hlen : (s.filter (keyB p q)).length ≤ 1 := hnd p q
  cases hfil : s.filter (keyB p q) with
  | nil => rw [hfil] at hmem; cases hmem
  | cons a t =>
    rw [hfil] at hmem hlen
    cases t with
    | nil => simp at hmem; rw [hmem]
    | cons b t' => simp at hlen
  

lemma length_filter_split_key {s : QueueState} {p q : String} {e0 : Entry}
    (hfil : s.filter (keyB p q) = [e0]) (P : Entry → Bool) :
    (s.filter P).length =
      (if P e0 then 1 else 0) +
        ((s.filter (fun e => !keyB p q e)).filter P).length := by
  have hperm := List.filter_append_perm (keyB p q) s
  have hcnt := hperm.countP_eq P
  rw [List.countP_append, hfil] at hcnt
  rw [length_filter_eq_countP, ← hcnt, length_filter_eq_countP]
  simp [List.countP_cons]

lemma add_ok_inv {s s1 : QueueState} {p q : String} {pos : Nat}
    (h : add_caller_to_queue s p q = Except.ok (s1, pos)) :
    inQueue s p q = false ∧
      s1 = s ++ [Entry.mk p q (occupantCount s q + 1)] ∧
      pos = occupantCount s q + 1 := by
  cases hq : inQueue s p q with
  | true => simp [add_caller_to_queue, hq] at h
  | false =>
    simp [add_caller_to_queue, hq] at h
    exact ⟨rfl, h.1.symm, h.2.symm⟩

lemma inQueue_false_iff (s : QueueState) (p q : String) :
    inQueue s p q = false ↔ ∀ e ∈ s, keyB p q e = false := by
  simp [inQueue, List.any_eq_false]

lemma keyCount_eq_zero_of_not_inQueue {s : QueueState} {p q : String}
    (h : inQueue s p q = false) : keyCount s p q = 0 := by
  have hall := (inQueue_false_iff s p q).mp h
  unfold keyCount
  rw [List.filter_eq_nil_iff.mpr (fun e he => by simp [hall e he])]
  rfl

lemma broadcast_update_store (o : NotifyOutcome) (w : World) :
    (broadcast_update o w).store = w.store := by
  cases o <;> rfl

lemma inQueue_append_single (s : QueueState) (e : Entry) (p q : String) :
    inQueue (s ++ [e]) p q = (inQueue s p q || keyB p q e) := by
  simp [inQueue]

lemma keyB_mk_self (p q : String) (k : Nat) : keyB p q (Entry.mk p q k) = true := by
  simp [keyB]

lemma occupantCount_append_single (s : QueueState) (e : Entry) (q' : String) :
    occupantCount (s ++ [e]) q' =
      occupantCount s q' + (if e.queue_name == q' then 1 else 0) := by
  unfold occupantCount
  rw [List.filter_append]
  split <;> simp [List.filter_cons, *]

lemma posCount_append_single (s : QueueState) (e : Entry) (q' : String) (k : Nat) :
    posCount (s ++ [e]) q' k =
      posCount s q' k + (if e.queue_name == q' && e.position == k then 1 else 0) := by
  unfold posCount
  rw [List.filter_append]
  split <;> simp [List.filter_cons, *]

lemma keyCount_append_single (s : QueueState) (e : Entry) (p' q' : String) :
    keyCount (s ++ [e]) p' q' =
      keyCount s p' q' + (if keyB p' q' e then 1 else 0) := by
  unfold keyCount
  rw [List.filter_append]
  split <;> simp [List.filter_cons, *]

lemma count_queuePositions (s : QueueState) (q : String) (k : Nat) :
    (queuePositions s q).count k = posCount s q k := by
  unfold queuePositions posCount
  rw [List.count_eq_countP, List.countP_map, length_filter_eq_countP]
  rw [List.countP_filter]
  apply List.countP_congr
  intro e _
  simp [Function.comp, Bool.and_comm]

lemma count_range_one (n : Nat) :
    ∀ s k, (List.range' s n).count k = if s ≤ k ∧ k < s + n then 1 else 0 := by
  induction n with
  | zero =>
    intro s k
    have h : ¬(s ≤ k ∧ k < s) := by omega
    simp [h]
  | succ m ih =>
    intro s k
    rw [List.range'_succ, List.count_cons, ih (s + 1) k]
    by_cases hks : k = s
    · subst hks
      have h1 : ¬(k + 1 ≤ k ∧ k < k + 1 + m) := by omega
      have h2 : k ≤ k ∧ k < k + (m + 1) := by omega
      simp [h1, h2]
    · have h3 : (k == s) = false := by simp [hks]
      have h4 : (s == k) = false := by
        simp only [beq_eq_false_iff_ne, ne_eq]
        exact fun h => hks h.symm
      simp only [h3, h4, Bool.false_eq_true, if_false]
      split_ifs <;> omega

lemma posExact_iff (s : QueueState) (q : String) :
    PosExact s q ↔
      ∀ k, posCount s q k =
        if 1 ≤ k ∧ k ≤ occupantCount s q then 1 else 0 := by
  unfold PosExact
  rw [List.perm_iff_count]
  constructor
  · intro h k
    have hk := h k
    rw [count_queuePositions, count_range_one _ 1 k] at hk
    rw [hk]
    split_ifs <;> omega
  · intro h k
    rw [count_queuePositions, count_range_one _ 1 k, h k]
    split_ifs <;> omega

lemma queueInvariant_nil : QueueInvariant [] := by
  constructor
  · intro p q
    simp [keyCount]
  · intro q
    have : occupantCount [] q = 0 := rfl
    unfold PosExact
    rw [this]
    simp [queuePositions]

lemma queueInvariant_join {s : QueueState} {p q : String}
    (hinv : QueueInvariant s) (habs : inQueue s p q = false) :
    QueueInvariant (s ++ [Entry.mk p q (occupantCount s q + 1)]) := by
  obtain ⟨hnd, hpos⟩ := hinv
  constructor
  · intro p' q'
    rw [keyCount_append_single]
    by_cases hkb : keyB p' q' (Entry.mk p q (occupantCount s q + 1)) = true
    · have hp : p' = p ∧ q' = q := by
        simp [keyB] at hkb
        exact ⟨hkb.1.symm, hkb.2.symm⟩
      obtain ⟨hp1, hp2⟩ := hp
      subst hp1; subst hp2
      rw [keyCount_eq_zero_of_not_inQueue habs, hkb]
      simp
    · rw [Bool.not_eq_true] at hkb
      rw [hkb]
      simp
      exact hnd p' q'
  · intro q'
    rw [posExact_iff]
    intro k
    rw [posCount_append_single, occupantCount_append_single]
    by_cases hqq : q = q'
    · subst hqq
      have hc := (posExact_iff s q).mp (hpos q) k
      have hq1 : ((Entry.mk p q (occupantCount s q + 1)).queue_name == q) = true := by
        simp
      by_cases hk : occupantCount s q + 1 = k
      · have hk1 : ((Entry.mk p q (occupantCount s q + 1)).position == k) = true := by
          simp [hk]
        rw [hc]
        simp [hq1, hk1]
        split_ifs <;> omega
      · have hk1 : ((Entry.mk p q (occupantCount s q + 1)).position == k) = false := by
          simp [hk]
        rw [hc]
        simp [hq1, hk1]
        split_ifs <;> omega
    · have hq1 : ((Entry.mk p q (occupantCount s q + 1)).queue_name == q') = false := by
        simp [hqq]
      have hc := (posExact_iff s q').mp (hpos q') k
      rw [hc]
      simp [hq1]

lemma find?_key_mem_filter {s : QueueState} {p q : String} {e0 : Entry}
    (hfind : s.find? (keyB p q) = some e0) (hnd : NoDupKeys s) :
    s.filter (keyB p q) = [e0] :=
  filter_single_of_noDupKeys hnd (List.mem_of_find?_eq_some hfind)
    (List.find?_some hfind)

lemma e0_queue_eq {p q : String} {e0 : Entry} (hk : keyB p q e0 = true) :
    e0.queue_name = q := by
  simp [keyB] at hk
  exact hk.2

lemma occupantCount_remove {s : QueueState} {p q : String} {e0 : Entry}
    (hfil : s.filter (keyB p q) = [e0]) (q' : String) :
    occupantCount ((s.filter (fun e => !keyB p q e)).map (renumber q e0.position)) q' =
      occupantCount s q' - (if e0.queue_name == q' then 1 else 0) := by
  unfold occupantCount
  rw [length_filter_map]
  have hcg : (s.filter (fun e => !keyB p q e)).filter
        (fun e => (renumber q e0.position e).queue_name == q') =
      (s.filter (fun e => !keyB p q e)).filter (fun e => e.queue_name == q') := by
    apply List.filter_congr
    intro e _
    rw [renumber_queue]
  rw [hcg]
  have hsplit := length_filter_split_key hfil (fun e => e.queue_name == q')
  omega

lemma posCount_remove_other {s : QueueState} {p q : String} {e0 : Entry}
    (hfil : s.filter (keyB p q) = [e0]) (hk0 : keyB p q e0 = true)
    {q' : String} (hne : q' ≠ q) (k : Nat) :
    posCount ((s.filter (fun e => !keyB p q e)).map (renumber q e0.position)) q' k =
      posCount s q' k := by
  unfold posCount
  rw [length_filter_map]
  have hcg : (s.filter (fun e => !keyB p q e)).filter
        (fun e => (renumber q e0.position e).queue_name == q' &&
          (renumber q e0.position e).position == k) =
      (s.filter (fun e => !keyB p q e)).filter
        (fun e => e.queue_name == q' && e.position == k) := by
    apply List.filter_congr
    intro e _
    rw [renumber_queue, renumber_position]
    by_cases hq : e.queue_name = q'
    · have hq2 : (e.queue_name == q) = false := by
        rw [hq]
        exact beq_eq_false_iff_ne.mpr hne
      simp [hq2]
    · have hq2 : (e.queue_name == q') = false := by simp [hq]
      simp [hq2]
  rw [hcg]
  have hsplit := length_filter_split_key hfil
    (fun e => e.queue_name == q' && e.position == k)
  have hq0 : (e0.queue_name == q') = false := by
    rw [e0_queue_eq hk0]
    exact beq_eq_false_iff_ne.mpr (Ne.symm hne)
  have hc : ¬((e0.queue_name == q' && e0.position == k) = true) := by
    rw [hq0]
    simp
  rw [if_neg hc] at hsplit
  omega

lemma posCount_remove_below {s : QueueState} {p q : String} {e0 : Entry}
    (hfil : s.filter (keyB p q) = [e0]) {k : Nat} (hk : k < e0.position) :
    posCount ((s.filter (fun e => !keyB p q e)).map (renumber q e0.position)) q k =
      posCount s q k := by
  unfold posCount
  rw [length_filter_map]
  have hcg : (s.filter (fun e => !keyB p q e)).filter
        (fun e => (renumber q e0.position e).queue_name == q &&
          (renumber q e0.position e).position == k) =
      (s.filter (fun e => !keyB p q e)).filter
        (fun e => e.queue_name == q && e.position == k) := by
    apply List.filter_congr
    intro e _
    rw [renumber_queue, renumber_position]
    by_cases hq : e.queue_name = q
    · by_cases hlt : e0.position < e.position
      · have ha : (e.position - 1 == k) = false := by
          simp
          omega
        have hb : (e.position == k) = false := by
          simp
          omega
        simp [hq, hlt, ha, hb]
      · simp [hq, hlt]
    · have hq2 : (e.queue_name == q) = false := by simp [hq]
      simp [hq2]
  rw [hcg]
  have hsplit := length_filter_split_key hfil
    (fun e => e.queue_name == q && e.position == k)
  have hc : ¬((e0.queue_name == q && e0.position == k) = true) := by
    have hb : (e0.position == k) = false := by
      simp
      omega
    rw [hb]
    simp
  rw [if_neg hc] at hsplit
  omega

lemma posCount_remove_above {s : QueueState} {p q : String} {e0 : Entry}
    (hfil : s.filter (keyB p q) = [e0]) (hk0 : keyB p q e0 = true)
    (hone : posCount s q e0.position = 1) {k : Nat} (hk : e0.position ≤ k) :
    posCount ((s.filter (fun e => !keyB p q e)).map (renumber q e0.position)) q k =
      posCount s q (k + 1) := by
  have hsplit0 := length_filter_split_key hfil
    (fun e => e.queue_name == q && e.position == e0.position)
  have hc0 : (e0.queue_name == q && e0.position == e0.position) = true := by
    simp [e0_queue_eq hk0]
  rw [if_pos hc0] at hsplit0
  unfold posCount at hone
  have hrest0 : ((s.filter (fun e => !keyB p q e)).filter
      (fun e => e.queue_name == q && e.position == e0.position)).length = 0 := by
    omega
  have hnomem : ∀ e ∈ s.filter (fun e => !keyB p q e),
      ¬(e.queue_name = q ∧ e.position = e0.position) := by
    intro e he hcon
    have hin : e ∈ (s.filter (fun e => !keyB p q e)).filter
        (fun e => e.queue_name == q && e.position == e0.position) := by
      apply List.mem_filter.mpr
      refine ⟨he, ?_⟩
      simp [hcon.1, hcon.2]
    rw [List.length_eq_zero.mp hrest0] at hin
    cases hin
  unfold posCount
  rw [length_filter_map]
  have hcg : (s.filter (fun e => !keyB p q e)).filter
        (fun e => (renumber q e0.position e).queue_name == q &&
          (renumber q e0.position e).position == k) =
      (s.filter (fun e => !keyB p q e)).filter
        (fun e => e.queue_name == q && e.position == k + 1) := by
    apply List.filter_congr
    intro e he
    rw [renumber_queue, renumber_position]
    by_cases hq : e.queue_name = q
    · by_cases hlt : e0.position < e.position
      · have h1 : ((e.position - 1 == k)) = ((e.position == k + 1)) := by
          by_cases hpk : e.position = k + 1
          · have ha : (e.position - 1 == k) = true := by
              simp
              omega
            have hb : (e.position == k + 1) = true := by simp [hpk]
            rw [ha, hb]
          · have ha : (e.position - 1 == k) = false := by
              simp
              omega
            have hb : (e.position == k + 1) = false := by simp [hpk]
            rw [ha, hb]
        simp [hq, hlt, h1]
      · have hnp : e.position ≠ e0.position := fun hcon => hnomem e he ⟨hq, hcon⟩
        have hlt2 : e.position < e0.position := by omega
        have ha : (e.position == k) = false := by
          simp
          omega
        have hb : (e.position == k + 1) = false := by
          simp
          omega
        simp [hq, hlt, ha, hb]
    · have hq2 : (e.queue_name == q) = false := by simp [hq]
      simp [hq2]
  rw [hcg]
  have hsplit := length_filter_split_key hfil
    (fun e => e.queue_name == q && e.position == k + 1)
  have hc : ¬((e0.queue_name == q && e0.position == k + 1) = true) := by
    have hb : (e0.position == k + 1) = false := by
      simp
      omega
    rw [hb]
    simp
  rw [if_neg hc] at hsplit
  omega

lemma posCount_pos_of_mem {s : QueueState} {e : Entry} (he : e ∈ s) :
    0 < posCount s e.queue_name e.position := by
  unfold posCount
  have hm : e ∈ s.filter
      (fun x => x.queue_name == e.queue_name && x.position == e.position) :=
    List.mem_filter.mpr ⟨he, by simp⟩
  exact List.length_pos_of_mem hm

lemma e0_position_bounds {s : QueueState} {p q : String} {e0 : Entry}
    (hinv : QueueInvariant s) (hfind : s.find? (keyB p q) = some e0) :
    1 ≤ e0.position ∧ e0.position ≤ occupantCount s q ∧
      posCount s q e0.position = 1 := by
  have hk0 := List.find?_some hfind
  have he0 := List.mem_of_find?_eq_some hfind
  have hq := e0_queue_eq hk0
  have hpos := posCount_pos_of_mem he0
  rw [hq] at hpos
  have hc := (posExact_iff s q).mp (hinv.2 q) e0.position
  by_cases hr : 1 ≤ e0.position ∧ e0.position ≤ occupantCount s q
  · refine ⟨hr.1, hr.2, ?_⟩
    rw [hc, if_pos hr]
  · rw [hc, if_neg hr] at hpos
    omega

lemma queueInvariant_remove (s : QueueState) (p q : String)
    (hinv : QueueInvariant s) :
    QueueInvariant (remove_caller_from_queue s p q).1 := by
  cases hfind : s.find? (keyB p q) with
  | none =>
    simp [remove_caller_from_queue, hfind]
    exact hinv
  | some e0 =>
    have hk0 := List.find?_some hfind
    have hfil := find?_key_mem_filter hfind hinv.1
    obtain ⟨hb1, hb2, hone⟩ := e0_position_bounds hinv hfind
    simp only [remove_caller_from_queue, hfind]
    constructor
    · intro p' q'
      unfold keyCount
      rw [length_filter_map]
      have hcg : (s.filter (fun e => !keyB p q e)).filter
            (fun e => keyB p' q' (renumber q e0.position e)) =
          (s.filter (fun e => !keyB p q e)).filter (keyB p' q') := by
        apply List.filter_congr
        intro e _
        rw [keyB_renumber]
      rw [hcg]
      have hsplit := length_filter_split_key hfil (keyB p' q')
      have hle := hinv.1 p' q'
      unfold keyCount at hle
      split at hsplit <;> omega
    · intro q'
      rw [posExact_iff]
      intro k
      by_cases hqq : q' = q
      · subst hqq
        have hq0 : (e0.queue_name == q') = true := by simp [e0_queue_eq hk0]
        rw [occupantCount_remove hfil q', if_pos hq0]
        by_cases hk : k < e0.position
        · rw [posCount_remove_below hfil hk]
          have hc := (posExact_iff s q').mp (hinv.2 q') k
          rw [hc]
          split_ifs <;> omega
        · rw [posCount_remove_above hfil hk0 hone (by omega)]
          have hc := (posExact_iff s q').mp (hinv.2 q') (k + 1)
          rw [hc]
          split_ifs <;> omega
      · rw [posCount_remove_other hfil hk0 hqq k, occupantCount_remove hfil q']
        have hq0 : ¬((e0.queue_name == q') = true) := by
          rw [e0_queue_eq hk0]
          simp
          exact fun h => hqq h.symm
        rw [if_neg hq0, Nat.sub_zero]
        exact (posExact_iff s q').mp (hinv.2 q') k

lemma inQueue_remove_self (s : QueueState) (p q : String) :
    inQueue (remove_caller_from_queue s p q).1 p q = false := by
  cases hfind : s.find? (keyB p q) with
  | none =>
    simp only [remove_caller_from_queue, hfind]
    rw [inQueue_false_iff]
    intro e he
    have hall := List.find?_eq_none.mp hfind
    simpa using hall e he
  | some e0 =>
    simp only [remove_caller_from_queue, hfind]
    rw [inQueue_false_iff]
    intro e he
    obtain ⟨e1, he1, rfl⟩ := List.mem_map.mp he
    rw [keyB_renumber]
    have := (List.mem_filter.mp he1).2
    simpa using this

lemma mem_remove_of_mem {s : QueueState} {p q : String} {e0 : Entry}
    (hfind : s.find? (keyB p q) = some e0) {e : Entry}
    (he : e ∈ s) (hne : keyB p q e = false) :
    renumber q e0.position e ∈ (remove_caller_from_queue s p q).1 := by
  simp only [remove_caller_from_queue, hfind]
  exact List.mem_map_of_mem _ (List.mem_filter.mpr ⟨he, by simp [hne]⟩)

lemma find?_key_unique {s : QueueState} {p q : String} {e0 : Entry} {k : Nat}
    (hnd : NoDupKeys s) (hfind : s.find? (keyB p q) = some e0)
    (hmem : Entry.mk p q k ∈ s) : e0 = Entry.mk p q k := by
  have hfil := find?_key_mem_filter hfind hnd
  have hm : Entry.mk p q k ∈ s.filter (keyB p q) :=
    List.mem_filter.mpr ⟨hmem, keyB_mk_self p q k⟩
  rw [hfil] at hm
  have := List.mem_singleton.mp hm
  exact this.symm

lemma remove_filter_other {s : QueueState} {p q q2 : String} (p0 : Nat)
    (hne : q2 ≠ q) :
    ((s.filter (fun e => !keyB p q e)).map (renumber q p0)).filter
        (fun e => e.queue_name == q2) =
      s.filter (fun e => e.queue_name == q2) := by
  induction s with
  | nil => rfl
  | cons a t ih =>
    by_cases hk : keyB p q a = true
    · have haq : a.queue_name = q := e0_queue_eq hk
      have h2 : (a.queue_name == q2) = false := by
        rw [haq]
        exact beq_eq_false_iff_ne.mpr (Ne.symm hne)
      simp [List.filter_cons, hk, h2, ih]
    · have hk2 : (!keyB p q a) = true := by simp [hk]
      by_cases h2 : a.queue_name = q2
      · have h3 : (a.queue_name == q) = false := by
          rw [h2]
          exact beq_eq_false_iff_ne.mpr hne
        have hra : renumber q p0 a = a := by
          unfold renumber
          rw [h3]
          simp
        have h2b : (a.queue_name == q2) = true := by simp [h2]
        simp [List.filter_cons, hk2, hra, h2b, ih]
      · have h2b : (a.queue_name == q2) = false := by simp [h2]
        simp [List.filter_cons, hk2, h2b, ih, renumber_queue, h2]

lemma append_filter_other {s : QueueState} {e : Entry} {q2 : String}
    (hne : (e.queue_name == q2) = false) :
    (s ++ [e]).filter (fun x => x.queue_name == q2) =
      s.filter (fun x => x.queue_name == q2) := by
  rw [List.filter_append]
  simp [List.filter_cons, hne]

lemma joinAll_invariant (q : String) :
    ∀ (phones : List String) (s : QueueState),
      QueueInvariant s → phones.Nodup →
      (∀ pn ∈ phones, inQueue s pn q = false) →
      QueueInvariant (phones.foldl (joinStep q) s) ∧
        occupantCount (phones.foldl (joinStep q) s) q =
          occupantCount s q + phones.length ∧
        (∀ pn, inQueue s pn q = true →
          inQueue (phones.foldl (joinStep q) s) pn q = true) ∧
        (∀ pn ∈ phones, inQueue (phones.foldl (joinStep q) s) pn q = true) := by
  intro phones
  induction phones with
  | nil =>
    intro s hinv _ _
    exact ⟨hinv, by simp, fun pn h => h, by simp⟩
  | cons pn rest ih =>
    intro s hinv hnd habs
    have habs0 : inQueue s pn q = false := habs pn (by simp)
    have hstep : joinStep q s pn = s ++ [Entry.mk pn q (occupantCount s q + 1)] := by
      simp [joinStep, add_caller_to_queue, habs0]
    have hinv1 : QueueInvariant (s ++ [Entry.mk pn q (occupantCount s q + 1)]) :=
      queueInvariant_join hinv habs0
    have hcnt1 : occupantCount (s ++ [Entry.mk pn q (occupantCount s q + 1)]) q =
        occupantCount s q + 1 := by
      rw [occupantCount_append_single]
      simp
    have hmem1 : inQueue (s ++ [Entry.mk pn q (occupantCount s q + 1)]) pn q = true := by
      rw [inQueue_append_single, keyB_mk_self]
      simp
    have hmono1 : ∀ x, inQueue s x q = true →
        inQueue (s ++ [Entry.mk pn q (occupantCount s q + 1)]) x q = true := by
      intro x hx
      rw [inQueue_append_single, hx]
      simp
    have habs1 : ∀ x ∈ rest,
        inQueue (s ++ [Entry.mk pn q (occupantCount s q + 1)]) x q = false := by
      intro x hx
      rw [inQueue_append_single]
      have h1 : inQueue s x q = false := habs x (by simp [hx])
      have hxne : x ≠ pn := by
        intro hcon
        subst hcon
        exact (List.nodup_cons.mp hnd).1 hx
      have h2 : keyB x q (Entry.mk pn q (occupantCount s q + 1)) = false := by
        simp [keyB]
        exact fun hcon => hxne hcon.symm
      rw [h1, h2]
      rfl
    obtain ⟨ha, hb, hc, hd⟩ :=
      ih (s ++ [Entry.mk pn q (occupantCount s q + 1)]) hinv1
        (List.nodup_cons.mp hnd).2 habs1
    rw [List.foldl_cons, hstep]
    refine ⟨ha, ?_, ?_, ?_⟩
    · rw [hb, hcnt1]
      simp
      omega
    · intro x hx
      exact hc x (hmono1 x hx)
    · intro x hx
      rcases List.mem_cons.mp hx with h | h
    
      · subst h
        exact hc x hmem1
      · exact hd x h

/-- Lookup of a queue name in the association list built by the summary
loop, with `0` for an absent name (the `dict.get(q_name, 0)` default). -/
def lkp (acc : List (String × Nat)) (q : String) : Nat :=
  match acc.find? (fun pr => pr.1 == q) with
  | some pr => pr.2
  | none => 0

/-- Well-formedness of the summary accumulator: counts are positive and the
names are pairwise distinct (a Python dict cannot repeat a key). -/
def AccOk (acc : List (String × Nat)) : Prop :=
  (∀ pr ∈ acc, 0 < pr.2) ∧ (acc.map Prod.fst).Nodup

lemma accOk_bump {acc : List (String × Nat)} (hok : AccOk acc) (nm : String) :
    AccOk (bump acc nm) := by
  unfold bump
  by_cases hany : acc.any (fun pr => pr.1 == nm) = true
  · rw [if_pos hany]
    constructor
    · intro pr hpr
      obtain ⟨pr0, hpr0, rfl⟩ := List.mem_map.mp hpr
      have := hok.1 pr0 hpr0
      split <;> simp
      omega
    · have hfst : (acc.map (fun pr => if pr.1 == nm then (pr.1, pr.2 + 1) else pr)).map
          Prod.fst = acc.map Prod.fst := by
        rw [List.map_map]
        apply List.map_congr_left
        intro pr _
        show Prod.fst (if pr.1 == nm then (pr.1, pr.2 + 1) else pr) = pr.1
        split <;> rfl
      rw [hfst]
      exact hok.2
  · rw [if_neg hany]
    constructor
    · intro pr hpr
      rcases List.mem_append.mp hpr with h | h
      · exact hok.1 pr h
      · simp at h
        rw [h]
        omega
    · rw [List.map_append]
      rw [List.nodup_append]
      refine ⟨hok.2, by simp, ?_⟩
      intro x hx hx2
      simp at hx2
      obtain ⟨pr0, hpr0, hfst⟩ := List.mem_map.mp hx
      rw [Bool.not_eq_true, List.any_eq_false] at hany
      have := hany pr0 hpr0
      rw [hx2] at hfst
      rw [hfst] at this
      simp at this

lemma lkp_bump (acc : List (String × Nat)) (nm q' : String) :
    lkp (bump acc nm) q' = lkp acc q' + (if nm == q' then 1 else 0) := by
  unfold bump
  by_cases hany : acc.any (fun pr => pr.1 == nm) = true
  · rw [if_pos hany]
    unfold lkp
    have hpred : (fun pr : String × Nat => pr.1 == q') ∘
        (fun pr : String × Nat => if pr.1 == nm then (pr.1, pr.2 + 1) else pr) =
        (fun pr : String × Nat => pr.1 == q') := by
      funext pr
      show ((if pr.1 == nm then (pr.1, pr.2 + 1) else pr).1 == q') = (pr.1 == q')
      split <;> rfl
    rw [List.find?_map, hpred]
    by_cases hq : nm = q'
    · subst hq
      obtain ⟨pr0, hfind⟩ : ∃ pr0, acc.find? (fun pr => pr.1 == nm) = some pr0 := by
        have hsome : (acc.find? (fun pr => pr.1 == nm)).isSome := by
          rw [List.find?_isSome]
          obtain ⟨x, hx, hpx⟩ := List.any_eq_true.mp hany
          exact ⟨x, hx, hpx⟩
        exact Option.isSome_iff_exists.mp hsome
      rw [hfind]
      have hp0 := List.find?_some hfind
      simp [hp0]
      rw [if_pos (by simpa using hp0)]
    · have hq2 : (nm == q') = false := by simp [hq]
      rw [hq2]
      cases hfind : acc.find? (fun pr => pr.1 == q') with
      | none => simp
      | some pr1 =>
        have hp1 := List.find?_some hfind
        have hp1n : (pr1.1 == nm) = false := by
          have hpe : pr1.1 = q' := by simpa using hp1
          rw [hpe]
          simp
          exact fun h => hq h.symm
        simp [hp1n, hq2]
        rw [if_neg (beq_eq_false_iff_ne.mp hp1n)]
  · rw [if_neg hany]
    unfold lkp
    rw [List.find?_append]
    have hnone : acc.find? (fun pr => pr.1 == nm) = none := by
      rw [List.find?_eq_none]
      intro x hx
      rw [Bool.not_eq_true, List.any_eq_false] at hany
      have := hany x hx
      simpa using this
    by_cases hq : nm = q'
    · subst hq
      rw [hnone]
      simp [List.find?]
    · have hq2 : (nm == q') = false := by simp [hq]
      rw [hq2]
      cases hfind : acc.find? (fun pr => pr.1 == q') with
      | none => simp [List.find?, hq2]
      | some pr1 => simp

lemma mem_iff_lkp : ∀ (acc : List (String × Nat)), AccOk acc →
    ∀ (q : String) (n : Nat), ((q, n) ∈ acc ↔ (lkp acc q = n ∧ 0 < n)) := by
  intro acc
  induction acc with
  | nil =>
    intro _ q n
    simp [lkp]
    omega
  | cons pr t ih =>
    intro hok q n
    have hokt : AccOk t :=
      ⟨fun x hx => hok.1 x (by simp [hx]), (List.nodup_cons.mp (by simpa using hok.2)).2⟩
    by_cases hq : pr.1 = q
    · have hlkp : lkp (pr :: t) q = pr.2 := by
        unfold lkp
        simp [List.find?, hq]
      rw [hlkp]
      constructor
      · intro hmem
        rcases List.mem_cons.mp hmem with h | h
        · refine ⟨?_, ?_⟩
          · rw [← h]
          · have := hok.1 (q, n) (by simp [hmem, h])
            simpa using this
        · exfalso
          have hqin : q ∈ t.map Prod.fst := List.mem_map.mpr ⟨(q, n), h, rfl⟩
          have hnd : (pr.1 :: t.map Prod.fst).Nodup := by simpa using hok.2
          have hnotin := (List.nodup_cons.mp hnd).1
          rw [hq] at hnotin
          exact hnotin hqin
      · intro ⟨heq, _⟩
        have : pr = (q, n) := by
          rw [Prod.ext_iff]
          exact ⟨hq, heq⟩
        rw [this]
        exact List.mem_cons_self _ _
    · have hlkp : lkp (pr :: t) q = lkp t q := by
        unfold lkp
        have hb : (pr.1 == q) = false := by simp [hq]
        simp [List.find?, hb]
      rw [hlkp, ← ih hokt q n]
      rw [List.mem_cons]
      constructor
      · intro h
        rcases h with h | h
        · exfalso
          apply hq
          rw [← h]
        · exact h
      · intro h
        exact Or.inr h

lemma lkp_foldl_bump : ∀ (l : List String) (acc : List (String × Nat)), AccOk acc →
    AccOk (l.foldl bump acc) ∧
      ∀ q, lkp (l.foldl bump acc) q =
        lkp acc q + (l.filter (fun nm => nm == q)).length := by
  intro l
  induction l with
  | nil =>
    intro acc hok
    exact ⟨hok, fun q => by simp⟩
  | cons nm rest ih =>
    intro acc hok
    obtain ⟨ha, hb⟩ := ih (bump acc nm) (accOk_bump hok nm)
    refine ⟨ha, fun q => ?_⟩
    rw [List.foldl_cons, hb q, lkp_bump, List.filter_cons]
    by_cases hq : (nm == q) = true
    · rw [if_pos hq, if_pos hq]
      simp
      omega
    · have hq2 : (nm == q) = false := by simpa using hq
      rw [hq2]
      simp

lemma occupantCount_eq_name_count (s : QueueState) (q : String) :
    ((s.map (fun e => e.queue_name)).filter (fun nm => nm == q)).length =
      occupantCount s q := by
  rw [length_filter_map]
  rfl

lemma decrement_absent {w : World} {p q : String} (o : NotifyOutcome)
    (h : inQueue w.store p q = false) :
    decrement_queue o w p q = (w, notFoundMsg) := by
  have hnone : w.store.find? (keyB p q) = none := by
    rw [List.find?_eq_none]
    intro e he
    simpa using (inQueue_false_iff w.store p q).mp h e he
  simp [decrement_queue, remove_caller_from_queue, hnone]

lemma decrement_store_not_inQueue (o : NotifyOutcome) (v : World) (p q : String) :
    inQueue ((decrement_queue o v p q).1).store p q = false := by
  have hrm := inQueue_remove_self v.store p q
  simp only [decrement_queue]
  split
  · rw [broadcast_update_store]
    exact hrm
  · exact hrm

lemma two_le_length_of_two_mem {l : List Entry} {a b : Entry}
    (hab : a ≠ b) (ha : a ∈ l) (hb : b ∈ l) : 2 ≤ l.length := by
  induction l with
  | nil => cases ha
  | cons x t ih =>
    rcases List.mem_cons.mp ha with h1 | h1
    · rcases List.mem_cons.mp hb with h2 | h2
      · exfalso
        apply hab
        rw [h1, ← h2]
      · have := List.length_pos_of_mem h2
        simp [List.length_cons]
        omega
    · have := List.length_pos_of_mem h1
      simp [List.length_cons]
      omega

lemma distinct_positions {s : QueueState} (hinv : QueueInvariant s) {e1 e2 : Entry}
    (h1 : e1 ∈ s) (h2 : e2 ∈ s) (hne : e1 ≠ e2)
    (hq : e1.queue_name = e2.queue_name) : e1.position ≠ e2.position := by
  intro hp
  have hm1 : e1 ∈ s.filter
      (fun e => e.queue_name == e2.queue_name && e.position == e2.position) :=
    List.mem_filter.mpr ⟨h1, by simp [hq, hp]⟩
  have hm2 : e2 ∈ s.filter
      (fun e => e.queue_name == e2.queue_name && e.position == e2.position) :=
    List.mem_filter.mpr ⟨h2, by simp⟩
  have h2le := two_le_length_of_two_mem hne hm1 hm2
  have hc := (posExact_iff s e2.queue_name).mp (hinv.2 e2.queue_name) e2.position
  unfold posCount at hc
  have hle1 : (s.filter
      (fun e => e.queue_name == e2.queue_name && e.position == e2.position)).length ≤ 1 := by
    rw [hc]
    split_ifs <;> omega
  omega

lemma queueInvariant_ABC : QueueInvariant
    [Entry.mk "A" "Sales" 1, Entry.mk "B" "Sales" 2, Entry.mk "C" "Sales" 3] :=
  @queueInvariant_join [Entry.mk "A" "Sales" 1, Entry.mk "B" "Sales" 2] "C" "Sales"
    (@queueInvariant_join [Entry.mk "A" "Sales" 1] "B" "Sales"
      (@queueInvariant_join [] "A" "Sales" queueInvariant_nil rfl) rfl) rfl

/-! ### Claims -/

/-- C1: starting from any state satisfying the data-model invariant, after a
completed join (a successful `add_caller_to_queue`) or a completed leave
(`remove_caller_from_queue`), every queue's position multiset is exactly
`{1, ..., N}` for `N` its occupant count — no gaps, no duplicates — and
every `(phone_number, queue_name)` pair occurs at most once
(`QueueInvariant` states precisely this). -/
theorem C1_invariant_preserved (s s1 : QueueState) (p q : String) (pos : Nat)
    (hinv : QueueInvariant s) :
    (add_caller_to_queue s p q = Except.ok (s1, pos) → QueueInvariant s1) ∧
    QueueInvariant (remove_caller_from_queue s p q).1 := by
  constructor
  · intro h
    obtain ⟨habs, hs1, _⟩ := add_ok_inv h
    rw [hs1]
    exact queueInvariant_join hinv habs
  · exact queueInvariant_remove s p q hinv

theorem C1_witness :
    QueueInvariant (remove_caller_from_queue [] "555-1111" "Sales").1 :=
  (C1_invariant_preserved [] [] "555-1111" "Sales" 0 queueInvariant_nil).2

/-- C2: joining a `(phone_number, queue_name)` pair that is not in the queue
inserts the entry with position `occupantCount + 1` computed before the
insert, and the `POST /queue/increment` endpoint returns exactly that
position. -/
theorem C2_join_assigns_next_position (s : QueueState) (p q : String)
    (h : inQueue s p q = false) :
    add_caller_to_queue s p q =
      Except.ok (s ++ [Entry.mk p q (occupantCount s q + 1)],
        occupantCount s q + 1) ∧
    (∀ (o : NotifyOutcome) (w : World), w.store = s →
      (increment_queue o w p q).2 = IncResp.ok (occupantCount s q + 1)) := by
  have hadd : add_caller_to_queue s p q =
      Except.ok (s ++ [Entry.mk p q (occupantCount s q + 1)],
        occupantCount s q + 1) := by
    simp [add_caller_to_queue, h]
  refine ⟨hadd, ?_⟩
  intro o w hw
  subst hw
  simp [increment_queue, hadd]

theorem C2_witness :
    (increment_queue NotifyOutcome.ok (World.mk [] []) "555-1111" "Sales").2 =
      IncResp.ok 1 :=
  (C2_join_assigns_next_position [] "555-1111" "Sales" rfl).2
    NotifyOutcome.ok (World.mk [] []) rfl

/-- C3: joining a pair already present makes the store raise the duplicate
error, the endpoint surfaces it as a 409 conflict, the world (store and
subscribers) is returned unchanged; and after any successful join the pair
is present, so a repeated join hits this branch. -/
theorem C3_duplicate_join_conflict (w : World) (p q : String)
    (o : NotifyOutcome) (h : inQueue w.store p q = true) :
    add_caller_to_queue w.store p q = Except.error dupMsg ∧
    increment_queue o w p q = (w, IncResp.conflict) ∧
    (∀ (w0 : World) (s1 : QueueState) (pos1 : Nat) (o0 : NotifyOutcome),
      add_caller_to_queue w0.store p q = Except.ok (s1, pos1) →
      inQueue ((increment_queue o0 w0 p q).1).store p q = true) := by
  refine ⟨by simp [add_caller_to_queue, h], ?_, ?_⟩
  · simp [increment_queue, add_caller_to_queue, h]
  · intro w0 s1 pos1 o0 hok
    obtain ⟨_, hs1, _⟩ := add_ok_inv hok
    simp only [increment_queue, hok]
    rw [broadcast_update_store]
    rw [hs1, inQueue_append_single, keyB_mk_self]
    simp

theorem C3_witness :
    increment_queue NotifyOutcome.ok
        (World.mk [Entry.mk "555-1111" "Sales" 1] []) "555-1111" "Sales" =
      (World.mk [Entry.mk "555-1111" "Sales" 1] [], IncResp.conflict) :=
  (C3_duplicate_join_conflict (World.mk [Entry.mk "555-1111" "Sales" 1] [])
    "555-1111" "Sales" NotifyOutcome.ok (by decide)).2.1

/-- C4: leaving while present at position `k` removes exactly that entry,
returns `k`, drops the occupant count by one, and moves every remaining
same-queue entry from position `k'` to `k' - 1` when `k < k'` and leaves it
at `k'` otherwise. -/
theorem C4_leave_removes_and_renumbers (s : QueueState) (p q : String) (k : Nat)
    (hinv : QueueInvariant s) (hmem : Entry.mk p q k ∈ s) :
    (remove_caller_from_queue s p q).2 = k ∧
    inQueue (remove_caller_from_queue s p q).1 p q = false ∧
    occupantCount (remove_caller_from_queue s p q).1 q = occupantCount s q - 1 ∧
    (∀ p' k', p' ≠ p → Entry.mk p' q k' ∈ s →
      Entry.mk p' q (if k < k' then k' - 1 else k') ∈
        (remove_caller_from_queue s p q).1) := by
  obtain ⟨e0, hfind⟩ : ∃ e0, s.find? (keyB p q) = some e0 := by
    have hsome : (s.find? (keyB p q)).isSome := by
      rw [List.find?_isSome]
      exact ⟨Entry.mk p q k, hmem, keyB_mk_self p q k⟩
    exact Option.isSome_iff_exists.mp hsome
  have he0 := find?_key_unique hinv.1 hfind hmem
  have hfil := find?_key_mem_filter hfind hinv.1
  refine ⟨?_, inQueue_remove_self s p q, ?_, ?_⟩
  · simp [remove_caller_from_queue, hfind, he0]
  · simp only [remove_caller_from_queue, hfind]
    rw [occupantCount_remove hfil q]
    have hq : (e0.queue_name == q) = true := by
      simp [e0_queue_eq (List.find?_some hfind)]
    rw [if_pos hq]
  · intro p' k' hne hmem'
    have hkey' : keyB p q (Entry.mk p' q k') = false := by
      simp [keyB]
      exact fun hcon => hne hcon
    have hmm := mem_remove_of_mem hfind hmem' hkey'
    have hrn : renumber q e0.position (Entry.mk p' q k') =
        Entry.mk p' q (if k < k' then k' - 1 else k') := by
      rw [he0]
      simp only [renumber]
      split_ifs with h1 h2 h3 <;> simp_all
    rw [hrn] at hmm
    exact hmm

theorem C4_witness :
    (remove_caller_from_queue
        [Entry.mk "A" "Sales" 1, Entry.mk "B" "Sales" 2, Entry.mk "C" "Sales" 3]
        "A" "Sales").2 = 1 ∧
    Entry.mk "B" "Sales" 1 ∈ (remove_caller_from_queue
        [Entry.mk "A" "Sales" 1, Entry.mk "B" "Sales" 2, Entry.mk "C" "Sales" 3]
        "A" "Sales").1 ∧
    Entry.mk "C" "Sales" 2 ∈ (remove_caller_from_queue
        [Entry.mk "A" "Sales" 1, Entry.mk "B" "Sales" 2, Entry.mk "C" "Sales" 3]
        "A" "Sales").1 := by
  have h := C4_leave_removes_and_renumbers
    [Entry.mk "A" "Sales" 1, Entry.mk "B" "Sales" 2, Entry.mk "C" "Sales" 3]
    "A" "Sales" 1 queueInvariant_ABC (by decide)
  refine ⟨h.1, ?_, ?_⟩
  · have hb := h.2.2.2 "B" 2 (by decide) (by decide)
    simpa using hb
  · have hcc := h.2.2.2 "C" 3 (by decide) (by decide)
    simpa using hcc

/-- C5: a leave for an absent pair returns the not-found message with HTTP
200 and leaves the whole world unchanged; and any second leave in a row
(after an arbitrary first leave) returns not-found with the world exactly as
the first leave left it. -/
theorem C5_leave_absent_idempotent (w : World) (p q : String)
    (o o' : NotifyOutcome) (h : inQueue w.store p q = false) :
    decrement_queue o w p q = (w, notFoundMsg) ∧
    (∀ v : World, decrement_queue o' (decrement_queue o v p q).1 p q =
      ((decrement_queue o v p q).1, notFoundMsg)) :=
  ⟨decrement_absent o h,
   fun v => decrement_absent o' (decrement_store_not_inQueue o v p q)⟩

theorem C5_witness :
    decrement_queue NotifyOutcome.ok (World.mk [] []) "555-1111" "Sales" =
      (World.mk [] [], notFoundMsg) :=
  (C5_leave_absent_idempotent (World.mk [] []) "555-1111" "Sales"
    NotifyOutcome.ok NotifyOutcome.ok rfl).1

/-- C6: a join or leave addressed to queue `q` leaves every other queue
`q2` completely unchanged — same rows, same positions, same count — and,
within `q`, a leave keeps the relative order (by position) of the remaining
entries while a join keeps every existing row untouched. -/
theorem C6_frame_isolation (s : QueueState) (p q q2 : String)
    (hne : q2 ≠ q) (hinv : QueueInvariant s) :
    (∀ s1 pos, add_caller_to_queue s p q = Except.ok (s1, pos) →
      s1.filter (fun e => e.queue_name == q2) =
          s.filter (fun e => e.queue_name == q2) ∧
        occupantCount s1 q2 = occupantCount s q2 ∧
        ∀ e ∈ s, e ∈ s1) ∧
    ((remove_caller_from_queue s p q).1.filter (fun e => e.queue_name == q2) =
        s.filter (fun e => e.queue_name == q2) ∧
      occupantCount (remove_caller_from_queue s p q).1 q2 = occupantCount s q2) ∧
    (∀ p1 k1 p2 k2, p1 ≠ p → p2 ≠ p → k1 < k2 →
      Entry.mk p1 q k1 ∈ s → Entry.mk p2 q k2 ∈ s →
      ∃ k1' k2', k1' < k2' ∧
        Entry.mk p1 q k1' ∈ (remove_caller_from_queue s p q).1 ∧
        Entry.mk p2 q k2' ∈ (remove_caller_from_queue s p q).1) := by
  have hq2b : ((Entry.mk p q (occupantCount s q + 1)).queue_name == q2) = false := by
    simp
    exact fun hcon => hne hcon.symm
  have hremfil : (remove_caller_from_queue s p q).1.filter
      (fun e => e.queue_name == q2) = s.filter (fun e => e.queue_name == q2) := by
    cases hfind : s.find? (keyB p q) with
    | none => simp [remove_caller_from_queue, hfind]
    | some e0 =>
      simp only [remove_caller_from_queue, hfind]
      exact remove_filter_other e0.position hne
  refine ⟨?_, ⟨hremfil, congrArg List.length hremfil⟩, ?_⟩
  · intro s1 pos hok
    obtain ⟨_, hs1, _⟩ := add_ok_inv hok
    subst hs1
    refine ⟨append_filter_other hq2b, ?_, ?_⟩
    · unfold occupantCount
      exact congrArg List.length (append_filter_other hq2b)
    · intro e he
      exact List.mem_append_left _ he
  · intro p1 k1 p2 k2 hp1 hp2 hk12 hm1 hm2
    cases hfind : s.find? (keyB p q) with
    | none =>
      refine ⟨k1, k2, hk12, ?_, ?_⟩ <;> simp [remove_caller_from_queue, hfind]
      · exact hm1
      · exact hm2
    | some e0 =>
      have hk0 := List.find?_some hfind
      have he0mem := List.mem_of_find?_eq_some hfind
      have he0p : e0.phone_number = p := by
        simp [keyB] at hk0
        exact hk0.1
      have he0q : e0.queue_name = q := e0_queue_eq hk0
      have hne1 : Entry.mk p1 q k1 ≠ e0 := by
        intro hcon
        apply hp1
        rw [← he0p, ← hcon]
      have hne2 : Entry.mk p2 q k2 ≠ e0 := by
        intro hcon
        apply hp2
        rw [← he0p, ← hcon]
      have hd1 : k1 ≠ e0.position :=
        distinct_positions hinv hm1 he0mem hne1 (by rw [he0q])
      have hd2 : k2 ≠ e0.position :=
        distinct_positions hinv hm2 he0mem hne2 (by rw [he0q])
      have hkey1 : keyB p q (Entry.mk p1 q k1) = false := by
        simp [keyB]
        exact fun hcon => hp1 hcon
      have hkey2 : keyB p q (Entry.mk p2 q k2) = false := by
        simp [keyB]
        exact fun hcon => hp2 hcon
      have hmm1 := mem_remove_of_mem hfind hm1 hkey1
      have hmm2 := mem_remove_of_mem hfind hm2 hkey2
      have hrn1 : renumber q e0.position (Entry.mk p1 q k1) =
          Entry.mk p1 q (if e0.position < k1 then k1 - 1 else k1) := by
        simp only [renumber]
        split_ifs with h1 h2 h3 <;> simp_all
      have hrn2 : renumber q e0.position (Entry.mk p2 q k2) =
          Entry.mk p2 q (if e0.position < k2 then k2 - 1 else k2) := by
        simp only [renumber]
        split_ifs with h1 h2 h3 <;> simp_all
      rw [hrn1] at hmm1
      rw [hrn2] at hmm2
      refine ⟨if e0.position < k1 then k1 - 1 else k1,
        if e0.position < k2 then k2 - 1 else k2, ?_, hmm1, hmm2⟩
      split_ifs <;> omega

theorem C6_witness :
    ∃ k1' k2', k1' < k2' ∧
      Entry.mk "B" "Sales" k1' ∈ (remove_caller_from_queue
        [Entry.mk "A" "Sales" 1, Entry.mk "B" "Sales" 2, Entry.mk "C" "Sales" 3]
        "A" "Sales").1 ∧
      Entry.mk "C" "Sales" k2' ∈ (remove_caller_from_queue
        [Entry.mk "A" "Sales" 1, Entry.mk "B" "Sales" 2, Entry.mk "C" "Sales" 3]
        "A" "Sales").1 :=
  (C6_frame_isolation
    [Entry.mk "A" "Sales" 1, Entry.mk "B" "Sales" 2, Entry.mk "C" "Sales" 3]
    "A" "Sales" "Support" (by decide) queueInvariant_ABC).2.2
    "B" 2 "C" 3 (by decide) (by decide) (by decide) (by decide) (by decide)

/-- C7: any concurrent schedule of `N` joins of pairwise-distinct callers
into an initially empty queue is, because each join is one atomic store
procedure, some sequential order of those joins; in every such order the
resulting positions are exactly `{1..N}` (so no two callers share one) and
every caller ends up in the queue. -/
theorem C7_concurrent_joins_exact_positions (q : String) (phones : List String)
    (hnd : phones.Nodup) :
    List.Perm (queuePositions (joinAll q phones) q)
      (List.range' 1 phones.length) ∧
    ∀ pn ∈ phones, inQueue (joinAll q phones) pn q = true := by
  obtain ⟨hinv, hcnt, _, hmem⟩ :=
    joinAll_invariant q phones [] queueInvariant_nil hnd (fun pn _ => rfl)
  refine ⟨?_, hmem⟩
  have hpe := hinv.2 q
  unfold PosExact at hpe
  rw [hcnt] at hpe
  have h0 : occupantCount [] q = 0 := rfl
  rw [h0, Nat.zero_add] at hpe
  simpa [joinAll] using hpe

theorem C7_witness :
    List.Perm
      (queuePositions (joinAll "Sales" ["555-1111", "555-2222", "555-3333"]) "Sales")
      (List.range' 1 3) ∧
    ∀ pn ∈ ["555-1111", "555-2222", "555-3333"],
      inQueue (joinAll "Sales" ["555-1111", "555-2222", "555-3333"]) pn "Sales" = true :=
  C7_concurrent_joins_exact_positions "Sales" ["555-1111", "555-2222", "555-3333"]
    (by decide)

/-- C8: the summary endpoint lists exactly the queues holding at least one
entry, each with its occupant count: `(q, n)` appears in the summary exactly
when queue `q` has occupant count `n > 0`; being a pure function of the
store, it mutates nothing. -/
theorem C8_summary_exact (s : QueueState) (q : String) (n : Nat) :
    (q, n) ∈ get_queues_summary s ↔ (occupantCount s q = n ∧ 0 < n) := by
  unfold get_queues_summary
  have hacc : AccOk [] := ⟨by simp, by simp⟩
  obtain ⟨hok, hl⟩ := lkp_foldl_bump (s.map (fun e => e.queue_name)) [] hacc
  rw [mem_iff_lkp _ hok q n, hl q, occupantCount_eq_name_count]
  have hnil : lkp [] q = 0 := rfl
  rw [hnil]
  simp

/-- C9: once the store mutation of a join or leave has committed, the
change-notification step cannot affect the caller: whatever the notify
outcome (success, failed summary fetch, delivery failure after any number of
subscribers), the endpoint still returns the success result and the
committed store is exactly the mutation's result. -/
theorem C9_notify_failure_not_propagated (w : World) (p q : String)
    (o : NotifyOutcome) (s1 : QueueState) (pos : Nat)
    (hok : add_caller_to_queue w.store p q = Except.ok (s1, pos)) :
    (increment_queue o w p q).2 = IncResp.ok pos ∧
    ((increment_queue o w p q).1).store = s1 ∧
    (∀ (w2 : World) (p2 q2 : String) (o2 : NotifyOutcome),
      0 < (remove_caller_from_queue w2.store p2 q2).2 →
      (decrement_queue o2 w2 p2 q2).2 = removedMsg p2 q2 ∧
      ((decrement_queue o2 w2 p2 q2).1).store =
        (remove_caller_from_queue w2.store p2 q2).1) := by
  refine ⟨?_, ?_, ?_⟩
  · simp [increment_queue, hok]
  · simp [increment_queue, hok, broadcast_update_store]
  · intro w2 p2 q2 o2 hpos
    constructor
    · simp [decrement_queue, hpos]
    · simp [decrement_queue, hpos, broadcast_update_store]

theorem C9_witness :
    (increment_queue NotifyOutcome.fetchFail (World.mk [] [[]])
        "555-1111" "Sales").2 = IncResp.ok 1 :=
  (C9_notify_failure_not_propagated (World.mk [] [[]]) "555-1111" "Sales"
    NotifyOutcome.fetchFail [Entry.mk "555-1111" "Sales" 1] 1 rfl).1

/-- C10: the not-found branch of a leave performs no broadcast (subscribers
unchanged for every notify outcome), while a leave that deleted a positive
position and every successful join put the freshly fetched summary on every
subscriber's channel. -/
theorem C10_broadcast_only_on_change (w : World) (p q : String) :
    ((remove_caller_from_queue w.store p q).2 = 0 →
      ∀ o, (decrement_queue o w p q).1.subscribers = w.subscribers) ∧
    (0 < (remove_caller_from_queue w.store p q).2 →
      (decrement_queue NotifyOutcome.ok w p q).1.subscribers =
        broadcast w.subscribers
          (get_queue_summary (remove_caller_from_queue w.store p q).1)) ∧
    (∀ s1 pos, add_caller_to_queue w.store p q = Except.ok (s1, pos) →
      (increment_queue NotifyOutcome.ok w p q).1.subscribers =
        broadcast w.subscribers (get_queue_summary s1)) := by
  refine ⟨?_, ?_, ?_⟩
  · intro h0 o
    simp [decrement_queue, h0]
  · intro hpos
    simp [decrement_queue, hpos, broadcast_update]
  · intro s1 pos hok
    simp [increment_queue, hok, broadcast_update]

theorem C10_witness :
    (decrement_queue NotifyOutcome.ok
        (World.mk [Entry.mk "555-1111" "Sales" 1] [[]])
        "555-1111" "Sales").1.subscribers =
      broadcast [[]] (get_queue_summary []) :=
  (C10_broadcast_only_on_change
    (World.mk [Entry.mk "555-1111" "Sales" 1] [[]]) "555-1111" "Sales").2.1
    (by decide)
